import Mathlib

/-!
Shallow embedding of `bitops.py` (RabidGuy/bitops), a library of operations on
big-endian bit vectors represented as sequences of the integers 0 and 1.

Bit vectors are modelled as `List Nat` (the Python code does not enforce that
elements are 0 or 1; the predicate `IsBits` states that side condition where a
claim assumes it).  Functions that can raise a Python exception return
`Except BitopsError`; the error payloads carry exactly the data the Python
code interpolates into its exception messages.  The function name that the
Python code obtains by call-stack introspection (`_parent_function_name`) is
presentation-only and is not modelled.
-/

/-- Errors raised by the library.  `arity` carries the minimum required and
the given operand counts, `lengthMismatch` carries the list `l` of operand
lengths that `_ensure_same_arg_length` interpolates into its message, and
`invalidShift` carries the offending shift amount. -/
inductive BitopsError where
  | arity (required given : Nat)
  | lengthMismatch (lengths : List Nat)
  | invalidShift (given : Int)
  deriving DecidableEq

/-- Python `_ensure_min_arg_count(min_count, *args)`: raises when fewer than
`min_count` operands are supplied. -/
def _ensure_min_arg_count (min_count : Nat) (args : List (List Nat)) :
    Except BitopsError Unit :=
  if args.length < min_count then
    .error (.arity min_count args.length)
  else
    .ok ()

/-- Python `_ensure_same_arg_length(*args)`: computes `l = [len(arg) for arg in args]`
and `s = set(l)`; exits cleanly iff `len(s) == 1` (the number of distinct
lengths, `l.dedup.length`, is 1), and otherwise raises an error whose message
interpolates `l` itself. -/
def _ensure_same_arg_length (args : List (List Nat)) : Except BitopsError Unit :=
  if (args.map List.length).dedup.length = 1 then
    .ok ()
  else
    .error (.lengthMismatch (args.map List.length))

/-- Python `op_and(*args)`: after validation, folds
`accumulator = [accumulator[i] & arg[i] for i in range(len(arg))]` over all
args starting from `[1] * len(args[0])`.  The comprehension over two
equal-length lists is `List.zipWith`. -/
def op_and (args : List (List Nat)) : Except BitopsError (List Nat) := do
  _ensure_min_arg_count 2 args
  _ensure_same_arg_length args
  pure (args.foldl (fun accumulator arg => List.zipWith (fun x y => x &&& y) accumulator arg)
    (List.replicate (args.headD []).length 1))

/-- Python `op_or(*args)`: same fold shape as `op_and` with `|` and initial
accumulator `[0] * len(args[0])`. -/
def op_or (args : List (List Nat)) : Except BitopsError (List Nat) := do
  _ensure_min_arg_count 2 args
  _ensure_same_arg_length args
  pure (args.foldl (fun accumulator arg => List.zipWith (fun x y => x ||| y) accumulator arg)
    (List.replicate (args.headD []).length 0))

/-- Python `op_xor(*args)`: sums the bits position-wise into `counter`, then maps
`{True: 1, False: 0}[bit == 1]`, i.e. `if bit = 1 then 1 else 0`. -/
def op_xor (args : List (List Nat)) : Except BitopsError (List Nat) := do
  _ensure_min_arg_count 2 args
  _ensure_same_arg_length args
  let counter := args.foldl (fun counter arg => List.zipWith (fun x y => x + y) counter arg)
    (List.replicate (args.headD []).length 0)
  pure (counter.map (fun bit => if bit = 1 then 1 else 0))

/-- Python `op_neg(bits)`: `[(bit + 1) % 2 for bit in bits]`.  No validation. -/
def op_neg (bits : List Nat) : List Nat :=
  bits.map (fun bit => (bit + 1) % 2)

/-- Python `op_ls0(shift, bits)`: left shift filling with 0.  The Python slice
assignment `accumulator[:retainer_length] = bits[shift:]` replaces the first
`retainer_length` cells of `accumulator = [0]*len(bits)` by `bits[shift:]`,
giving `bits[shift:] ++ accumulator[retainer_length:]`. -/
def op_ls0 (shift : Int) (bits : List Nat) : Except BitopsError (List Nat) :=
  if shift < 1 then
    .error (.invalidShift shift)
  else
    .ok (bits.drop shift.toNat ++ (List.replicate bits.length 0).drop (bits.length - shift.toNat))

/-- Python `op_ls1(shift, bits)`: left shift filling with 1. -/
def op_ls1 (shift : Int) (bits : List Nat) : Except BitopsError (List Nat) :=
  if shift < 1 then
    .error (.invalidShift shift)
  else
    .ok (bits.drop shift.toNat ++ (List.replicate bits.length 1).drop (bits.length - shift.toNat))

/-- Python `op_rs0(shift, bits)`: right shift filling with 0.  The slice assignment
`accumulator[shift:] = bits[:retainer_length]` keeps the first `shift` cells
of `accumulator = [0]*len(bits)` and replaces the rest by
`bits[:retainer_length]`. -/
def op_rs0 (shift : Int) (bits : List Nat) : Except BitopsError (List Nat) :=
  if shift < 1 then
    .error (.invalidShift shift)
  else
    .ok ((List.replicate bits.length 0).take shift.toNat ++ bits.take (bits.length - shift.toNat))

/-- Python `op_rs1(shift, bits)`: right shift filling with 1. -/
def op_rs1 (shift : Int) (bits : List Nat) : Except BitopsError (List Nat) :=
  if shift < 1 then
    .error (.invalidShift shift)
  else
    .ok ((List.replicate bits.length 1).take shift.toNat ++ bits.take (bits.length - shift.toNat))

/-- The loop of `_add_two_values`, on little-endian (reversed) lists: the
Python loop visits index `-(i+1)` for `i = 0 .. len-1` (rightmost first),
emitting `total % 2` and carrying `1` when `total > 1`. -/
def rippleCarry : List Nat → List Nat → Nat → List Nat
  | [], _, _ => []
  | _, [], _ => []
  | x :: xs, y :: ys, carry =>
    (x + y + carry) % 2 :: rippleCarry xs ys (if x + y + carry > 1 then 1 else 0)

/-- Python `_add_two_values(a, b)`: ripple-carry sum processed from the rightmost
position, each new bit inserted at the front of `out` (so the computation is
little-endian and the result is read back big-endian). -/
def _add_two_values (a b : List Nat) : List Nat :=
  (rippleCarry a.reverse b.reverse 0).reverse

/-- Python `op_add(*args)`: validation, then a fold of `_add_two_values` starting
from `[0] * len(args[0])`. -/
def op_add (args : List (List Nat)) : Except BitopsError (List Nat) := do
  _ensure_min_arg_count 2 args
  _ensure_same_arg_length args
  pure (args.foldl (fun accumulator addend => _add_two_values accumulator addend)
    (List.replicate (args.headD []).length 0))

/-- Python `_one(length)`: `[0]*(length-1) + [1]`.  Python's negative list repetition
gives the empty list, as does `Nat` subtraction here, so `_one 0 = [1]`. -/
def _one (length : Nat) : List Nat :=
  List.replicate (length - 1) 0 ++ [1]

/-- The body of the `op_sub` loop: `inverse = op_neg(subtrahend)`,
`addend = op_add(inverse, _one(len(inverse)))`, and the addend is added to the
running accumulator (the local `inverse` is written out inline here). -/
def subStep (accumulator subtrahend : List Nat) : Except BitopsError (List Nat) := do
  let addend ← op_add [op_neg subtrahend, _one (op_neg subtrahend).length]
  op_add [accumulator, addend]

/-- Python `op_sub(*args)`: validation, then repeated `subStep` over `args[1:]`
starting from `args[0]`; the `if not subtrahends` early return mirrors the
Python code (it is unreachable because validation requires two operands). -/
def op_sub (args : List (List Nat)) : Except BitopsError (List Nat) := do
  _ensure_min_arg_count 2 args
  _ensure_same_arg_length args
  let accumulator := args.headD []
  let subtrahends := args.tail
  if subtrahends.isEmpty then
    pure accumulator
  else
    subtrahends.foldlM subStep accumulator

/-- Python `op_inc(bits)`: `op_add(bits, _one(len(bits)))`. -/
def op_inc (bits : List Nat) : Except BitopsError (List Nat) :=
  op_add [bits, _one bits.length]

/-- Python `op_dec(bits)`: `op_sub(bits, _one(len(bits)))`. -/
def op_dec (bits : List Nat) : Except BitopsError (List Nat) :=
  op_sub [bits, _one bits.length]

/-! ## Semantic notions used to state the claims -/

/-- Every element of the list is a bit (0 or 1). -/
def IsBits (l : List Nat) : Prop := ∀ b ∈ l, b = 0 ∨ b = 1

instance : DecidablePred IsBits := fun l =>
  List.decidableBAll (fun b => b = 0 ∨ b = 1) l

/-- Unsigned value of a little-endian bit list. -/
def leVal : List Nat → Nat
  | [] => 0
  | b :: bs => b + 2 * leVal bs

/-- Unsigned value of a big-endian bit vector (index 0 most significant). -/
def bitsToNat (bits : List Nat) : Nat := leVal bits.reverse

/-- Little-endian binary encoding of `n` on `L` bits. -/
def natToBitsLE : Nat → Nat → List Nat
  | 0, _ => []
  | L + 1, n => n % 2 :: natToBitsLE L (n / 2)

/-- Big-endian binary encoding of `n` on `L` bits. -/
def natToBits (L n : Nat) : List Nat := (natToBitsLE L n).reverse

/-- The operands all share one common length. -/
def sharesCommonLength (args : List (List Nat)) : Prop :=
  ∃ L, ∀ a ∈ args, a.length = L

/-- The value the spec says a length-mismatch message reports: the distinct
operand lengths encountered, as a sorted set (no duplicates).  Stated from the
spec's words, to be compared with the payload the code actually reports. -/
def reportedLengths_spec (args : List (List Nat)) : List Nat :=
  List.insertionSort (fun x y => x ≤ y) ((args.map List.length).dedup)

/-! ## Arithmetic toolbox for bit values -/

lemma leVal_replicate_zero (n : Nat) : leVal (List.replicate n 0) = 0 := by
  induction n with
  | zero => rfl
  | succ n ih => simp [List.replicate_succ, leVal, ih]

lemma mod_two_pow_succ_aux (b S n : Nat) (hb : b ≤ 1) :
    (b + 2 * S) % (2 * 2 ^ n) = b + 2 * (S % 2 ^ n) := by
  have h1 : S % 2 ^ n < 2 ^ n := Nat.mod_lt _ (Nat.pow_pos (by norm_num))
  have h2 : b + 2 * S = b + 2 * (S % 2 ^ n) + 2 * 2 ^ n * (S / 2 ^ n) := by
    conv_lhs => rw [← Nat.div_add_mod S (2 ^ n)]
    ring
  rw [h2, Nat.add_mul_mod_self_left, Nat.mod_eq_of_lt (by omega)]

lemma leVal_lt (l : List Nat) (h : IsBits l) : leVal l < 2 ^ l.length := by
  induction l with
  | nil => simp [leVal]
  | cons b bs ih =>
    have hb : b ≤ 1 := by rcases h b (by simp) with h' | h' <;> omega
    have hbs : leVal bs < 2 ^ bs.length := ih (fun x hx => h x (by simp [hx]))
    simp only [leVal, List.length_cons, pow_succ]
    omega

lemma leVal_inj (xs : List Nat) : ∀ ys : List Nat, xs.length = ys.length →
    IsBits xs → IsBits ys → leVal xs = leVal ys → xs = ys := by
  induction xs with
  | nil => intro ys hlen _ _ _; cases ys with
    | nil => rfl
    | cons y ys => simp at hlen
  | cons x xs ih =>
    intro ys hlen hx hy hval
    cases ys with
    | nil => simp at hlen
    | cons y ys =>
      have hx1 : x ≤ 1 := by rcases hx x (by simp) with h' | h' <;> omega
      have hy1 : y ≤ 1 := by rcases hy y (by simp) with h' | h' <;> omega
      simp only [leVal] at hval
      have hxy : x = y := by omega
      have hvs : leVal xs = leVal ys := by omega
      have hlen' : xs.length = ys.length := by simpa using hlen
      rw [hxy, ih ys hlen' (fun b hb => hx b (by simp [hb]))
        (fun b hb => hy b (by simp [hb])) hvs]

lemma isBits_reverse (l : List Nat) : IsBits l.reverse ↔ IsBits l := by
  simp [IsBits]

lemma bitsToNat_lt (l : List Nat) (h : IsBits l) : bitsToNat l < 2 ^ l.length := by
  have := leVal_lt l.reverse ((isBits_reverse l).mpr h)
  simpa [bitsToNat] using this

lemma bitsToNat_inj (a b : List Nat) (hlen : a.length = b.length)
    (ha : IsBits a) (hb : IsBits b) (hv : bitsToNat a = bitsToNat b) : a = b := by
  have := leVal_inj a.reverse b.reverse (by simp [hlen])
    ((isBits_reverse a).mpr ha) ((isBits_reverse b).mpr hb) hv
  exact List.reverse_injective this

lemma natToBitsLE_length (L n : Nat) : (natToBitsLE L n).length = L := by
  induction L generalizing n with
  | zero => rfl
  | succ L ih => simp [natToBitsLE, ih]

lemma natToBitsLE_isBits (L n : Nat) : IsBits (natToBitsLE L n) := by
  induction L generalizing n with
  | zero => intro b hb; simp [natToBitsLE] at hb
  | succ L ih =>
    intro b hb
    simp only [natToBitsLE, List.mem_cons] at hb
    rcases hb with hb | hb
    · subst hb; omega
    · exact ih (n / 2) b hb

lemma leVal_natToBitsLE (L n : Nat) : leVal (natToBitsLE L n) = n % 2 ^ L := by
  induction L generalizing n with
  | zero => simp [natToBitsLE, leVal, Nat.mod_one]
  | succ L ih =>
    simp only [natToBitsLE, leVal, ih]
    rw [show (2:Nat) ^ (L + 1) = 2 * 2 ^ L from by ring,
      ← mod_two_pow_succ_aux (n % 2) (n / 2) L (by omega), Nat.mod_add_div]

lemma natToBits_length (L n : Nat) : (natToBits L n).length = L := by
  simp [natToBits, natToBitsLE_length]

lemma natToBits_isBits (L n : Nat) : IsBits (natToBits L n) :=
  (isBits_reverse _).mpr (natToBitsLE_isBits L n)

lemma bitsToNat_natToBits (L n : Nat) : bitsToNat (natToBits L n) = n % 2 ^ L := by
  simp [bitsToNat, natToBits, leVal_natToBitsLE]

/-! ## Facts about the ripple-carry adder -/

lemma rippleCarry_length : ∀ (xs ys : List Nat) (c : Nat),
    (rippleCarry xs ys c).length = min xs.length ys.length := by
  intro xs
  induction xs with
  | nil => intro ys c; cases ys <;> simp [rippleCarry]
  | cons x xs ih =>
    intro ys c
    cases ys with
    | nil => simp [rippleCarry]
    | cons y ys => simp [rippleCarry, ih, Nat.succ_min_succ]

lemma rippleCarry_isBits : ∀ (xs ys : List Nat) (c : Nat), IsBits (rippleCarry xs ys c) := by
  intro xs
  induction xs with
  | nil => intro ys c b hb; cases ys <;> simp [rippleCarry] at hb
  | cons x xs ih =>
    intro ys c b hb
    cases ys with
    | nil => simp [rippleCarry] at hb
    | cons y ys =>
      simp only [rippleCarry, List.mem_cons] at hb
      rcases hb with hb | hb
      · subst hb; omega
      · exact ih ys _ b hb

lemma leVal_rippleCarry : ∀ (xs ys : List Nat) (c : Nat), xs.length = ys.length →
    IsBits xs → IsBits ys → c ≤ 1 →
    leVal (rippleCarry xs ys c) = (leVal xs + leVal ys + c) % 2 ^ xs.length := by
  intro xs
  induction xs with
  | nil =>
    intro ys c hlen _ _ _
    cases ys with
    | nil => simp [rippleCarry, leVal, Nat.mod_one]
    | cons y ys => simp at hlen
  | cons x xs ih =>
    intro ys c hlen hx hy hc
    cases ys with
    | nil => simp at hlen
    | cons y ys =>
      have hx1 : x ≤ 1 := by rcases hx x (by simp) with h | h <;> omega
      have hy1 : y ≤ 1 := by rcases hy y (by simp) with h | h <;> omega
      have hlen' : xs.length = ys.length := by simpa using hlen
      have hxs : IsBits xs := fun b hb => hx b (by simp [hb])
      have hys : IsBits ys := fun b hb => hy b (by simp [hb])
      have hc1 : (if x + y + c > 1 then 1 else 0) ≤ 1 := by split <;> omega
      simp only [rippleCarry, leVal]
      rw [ih ys (if x + y + c > 1 then 1 else 0) hlen' hxs hys hc1]
      have htot : x + y + c = 2 * (if x + y + c > 1 then 1 else 0) + (x + y + c) % 2 := by
        split <;> omega
      rw [List.length_cons, show (2:Nat) ^ (xs.length + 1) = 2 * 2 ^ xs.length from by ring,
        show x + 2 * leVal xs + (y + 2 * leVal ys) + c
          = (x + y + c) % 2 + 2 * (leVal xs + leVal ys + (if x + y + c > 1 then 1 else 0))
          from by omega]
      exact (mod_two_pow_succ_aux _ _ _ (by omega)).symm

lemma _add_two_values_length (a b : List Nat) (h : a.length = b.length) :
    (_add_two_values a b).length = a.length := by
  simp [_add_two_values, rippleCarry_length, h]

lemma _add_two_values_isBits (a b : List Nat) : IsBits (_add_two_values a b) := by
  unfold _add_two_values
  exact (isBits_reverse _).mpr (rippleCarry_isBits _ _ _)

lemma bitsToNat_add_two (a b : List Nat) (h : a.length = b.length)
    (ha : IsBits a) (hb : IsBits b) :
    bitsToNat (_add_two_values a b) = (bitsToNat a + bitsToNat b) % 2 ^ a.length := by
  unfold _add_two_values bitsToNat
  rw [List.reverse_reverse,
    leVal_rippleCarry a.reverse b.reverse 0 (by simp [h]) ((isBits_reverse a).mpr ha)
      ((isBits_reverse b).mpr hb) (by omega)]
  simp

lemma foldl_add_two (addends : List (List Nat)) : ∀ (acc : List Nat) (L : Nat),
    acc.length = L → IsBits acc →
    (∀ a ∈ addends, a.length = L) → (∀ a ∈ addends, IsBits a) →
    (addends.foldl _add_two_values acc).length = L ∧
    IsBits (addends.foldl _add_two_values acc) ∧
    bitsToNat (addends.foldl _add_two_values acc)
      = (bitsToNat acc + (addends.map bitsToNat).sum) % 2 ^ L := by
  induction addends with
  | nil =>
    intro acc L h1 h2 _ _
    refine ⟨h1, h2, ?_⟩
    simp only [List.foldl_nil, List.map_nil, List.sum_nil, Nat.add_zero]
    exact (Nat.mod_eq_of_lt (h1 ▸ bitsToNat_lt acc h2)).symm
  | cons a rest ih =>
    intro acc L h1 h2 hlen hbits
    have hA : a.length = L := hlen a (by simp)
    have hAb : IsBits a := hbits a (by simp)
    have hacc' : (_add_two_values acc a).length = L := by
      rw [_add_two_values_length acc a (by omega), h1]
    have hbits' : IsBits (_add_two_values acc a) := _add_two_values_isBits acc a
    have hval : bitsToNat (_add_two_values acc a) = (bitsToNat acc + bitsToNat a) % 2 ^ L := by
      rw [bitsToNat_add_two acc a (by omega) h2 hAb, h1]
    obtain ⟨l1, b1, v1⟩ := ih (_add_two_values acc a) L hacc' hbits'
      (fun x hx => hlen x (by simp [hx])) (fun x hx => hbits x (by simp [hx]))
    refine ⟨l1, b1, ?_⟩
    simp only [List.foldl_cons] at *
    rw [v1, hval, Nat.mod_add_mod, List.map_cons, List.sum_cons]
    congr 1
    omega

/-! ## The validation predicate versus shared lengths -/

lemma dedup_all_eq : ∀ (l : List Nat) (x : Nat), l ≠ [] → (∀ y ∈ l, y = x) →
    l.dedup = [x] := by
  intro l
  induction l with
  | nil => intro x h _; exact absurd rfl h
  | cons a t ih =>
    intro x _ h
    have hax : a = x := h a (by simp)
    cases t with
    | nil => simp [hax]
    | cons b t' =>
      have hbx : b = x := h b (by simp)
      have hmem : a ∈ b :: t' := by rw [hax, hbx]; exact List.mem_cons_self _ _
      rw [List.dedup_cons_of_mem hmem]
      exact ih x (by simp) (fun y hy => h y (by simp [hy]))

lemma sharesCommonLength_iff (args : List (List Nat)) (hne : args ≠ []) :
    (args.map List.length).dedup.length = 1 ↔ sharesCommonLength args := by
  constructor
  · intro h
    obtain ⟨x, hx⟩ := List.length_eq_one.mp h
    refine ⟨x, fun a ha => ?_⟩
    have hmem : a.length ∈ (args.map List.length).dedup := by
      rw [List.mem_dedup]; exact List.mem_map_of_mem _ ha
    rw [hx] at hmem; simpa using hmem
  · rintro ⟨L, hL⟩
    have hd : (args.map List.length).dedup = [L] := by
      apply dedup_all_eq
      · simp [hne]
      · intro y hy
        obtain ⟨a, ha, rfl⟩ := List.mem_map.mp hy
        exact hL a ha
    simp [hd]

/-! ## Closed forms for the validation prelude of each variadic operation -/

lemma op_and_eq (args : List (List Nat)) : op_and args =
    if args.length < 2 then Except.error (.arity 2 args.length)
    else if (args.map List.length).dedup.length = 1 then
      Except.ok (args.foldl (fun accumulator arg => List.zipWith (fun x y => x &&& y) accumulator arg)
        (List.replicate (args.headD []).length 1))
    else Except.error (.lengthMismatch (args.map List.length)) := by
  unfold op_and _ensure_min_arg_count _ensure_same_arg_length
  split
  · rfl
  · split <;> rfl

lemma op_or_eq (args : List (List Nat)) : op_or args =
    if args.length < 2 then Except.error (.arity 2 args.length)
    else if (args.map List.length).dedup.length = 1 then
      Except.ok (args.foldl (fun accumulator arg => List.zipWith (fun x y => x ||| y) accumulator arg)
        (List.replicate (args.headD []).length 0))
    else Except.error (.lengthMismatch (args.map List.length)) := by
  unfold op_or _ensure_min_arg_count _ensure_same_arg_length
  split
  · rfl
  · split <;> rfl

lemma op_xor_eq (args : List (List Nat)) : op_xor args =
    if args.length < 2 then Except.error (.arity 2 args.length)
    else if (args.map List.length).dedup.length = 1 then
      Except.ok ((args.foldl (fun counter arg => List.zipWith (fun x y => x + y) counter arg)
        (List.replicate (args.headD []).length 0)).map (fun bit => if bit = 1 then 1 else 0))
    else Except.error (.lengthMismatch (args.map List.length)) := by
  unfold op_xor _ensure_min_arg_count _ensure_same_arg_length
  split
  · rfl
  · split <;> rfl

lemma op_add_eq (args : List (List Nat)) : op_add args =
    if args.length < 2 then Except.error (.arity 2 args.length)
    else if (args.map List.length).dedup.length = 1 then
      Except.ok (args.foldl _add_two_values (List.replicate (args.headD []).length 0))
    else Except.error (.lengthMismatch (args.map List.length)) := by
  unfold op_add _ensure_min_arg_count _ensure_same_arg_length
  split
  · rfl
  · split <;> rfl

lemma op_sub_eq (args : List (List Nat)) : op_sub args =
    if args.length < 2 then Except.error (.arity 2 args.length)
    else if (args.map List.length).dedup.length = 1 then
      args.tail.foldlM subStep (args.headD [])
    else Except.error (.lengthMismatch (args.map List.length)) := by
  unfold op_sub _ensure_min_arg_count _ensure_same_arg_length
  split
  · rfl
  · rename_i hge
    split
    · rename_i hdl
      have htne : args.tail.isEmpty = false := by
        cases args with
        | nil => simp at hge
        | cons a t =>
          cases t with
          | nil => simp at hge
          | cons b t' => simp
      show (if args.tail.isEmpty = true then _ else _) = _
      rw [htne]
      simp
    · rfl

/-! ## Characterisation of op_add and op_sub -/

lemma isBits_replicate_zero (L : Nat) : IsBits (List.replicate L 0) := by
  intro b hb
  exact Or.inl (List.eq_of_mem_replicate hb)

lemma bitsToNat_replicate_zero (L : Nat) : bitsToNat (List.replicate L 0) = 0 := by
  simp [bitsToNat, List.reverse_replicate, leVal_replicate_zero]

lemma foldl_add_two_length (addends : List (List Nat)) : ∀ (acc : List Nat) (L : Nat),
    acc.length = L → (∀ a ∈ addends, a.length = L) →
    (addends.foldl _add_two_values acc).length = L := by
  induction addends with
  | nil => intro acc L h _; simpa using h
  | cons a rest ih =>
    intro acc L h hlen
    have hA : a.length = L := hlen a (by simp)
    simp only [List.foldl_cons]
    exact ih (_add_two_values acc a) L
      (by rw [_add_two_values_length acc a (by omega), h])
      (fun x hx => hlen x (by simp [hx]))

lemma foldl_add_two_isBits (addends : List (List Nat)) : ∀ (acc : List Nat),
    IsBits acc → IsBits (addends.foldl _add_two_values acc) := by
  induction addends with
  | nil => intro acc h; simpa using h
  | cons a rest ih =>
    intro acc _
    simp only [List.foldl_cons]
    exact ih (_add_two_values acc a) (_add_two_values_isBits acc a)

lemma op_add_ok (args : List (List Nat)) (L : Nat) (h2 : 2 ≤ args.length)
    (hlen : ∀ a ∈ args, a.length = L) :
    op_add args = .ok (args.foldl _add_two_values (List.replicate L 0)) := by
  have hne : args ≠ [] := by intro h; subst h; simp at h2
  have hhead : (args.headD []).length = L := by
    cases args with
    | nil => simp at h2
    | cons a t => exact hlen a (by simp)
  rw [op_add_eq, if_neg (by omega),
    if_pos ((sharesCommonLength_iff args hne).mpr ⟨L, hlen⟩), hhead]

lemma op_add_ok_exists (args : List (List Nat)) (L : Nat) (h2 : 2 ≤ args.length)
    (hlen : ∀ a ∈ args, a.length = L) :
    ∃ out, op_add args = .ok out ∧ out.length = L ∧ IsBits out := by
  rw [op_add_ok args L h2 hlen]
  exact ⟨_, rfl, foldl_add_two_length args _ L (by simp) hlen,
    foldl_add_two_isBits args _ (isBits_replicate_zero L)⟩

lemma op_add_val (args : List (List Nat)) (L : Nat) (h2 : 2 ≤ args.length)
    (hlen : ∀ a ∈ args, a.length = L) (hbits : ∀ a ∈ args, IsBits a) :
    op_add args = .ok (natToBits L ((args.map bitsToNat).sum % 2 ^ L)) := by
  rw [op_add_ok args L h2 hlen]
  obtain ⟨l1, b1, v1⟩ := foldl_add_two args (List.replicate L 0) L (by simp)
    (isBits_replicate_zero L) hlen hbits
  congr 1
  apply bitsToNat_inj
  · rw [l1, natToBits_length]
  · exact b1
  · exact natToBits_isBits L _
  · rw [v1, bitsToNat_natToBits, bitsToNat_replicate_zero, Nat.zero_add,
      Nat.mod_mod_of_dvd _ dvd_rfl]

lemma op_add_isBits_out (args : List (List Nat)) (out : List Nat)
    (h : op_add args = .ok out) : IsBits out := by
  rw [op_add_eq] at h
  split at h
  · exact absurd h (by simp)
  · split at h
    · have : out = args.foldl _add_two_values (List.replicate (args.headD []).length 0) :=
        (Except.ok.inj h).symm
      rw [this]
      exact foldl_add_two_isBits args _ (isBits_replicate_zero _)
    · exact absurd h (by simp)

lemma op_neg_length (bits : List Nat) : (op_neg bits).length = bits.length := by
  simp [op_neg]

lemma op_neg_isBits (bits : List Nat) : IsBits (op_neg bits) := by
  intro b hb
  obtain ⟨x, _, rfl⟩ := List.mem_map.mp hb
  omega

lemma leVal_map_neg (l : List Nat) (h : IsBits l) :
    leVal (l.map (fun b => (b + 1) % 2)) = 2 ^ l.length - 1 - leVal l := by
  induction l with
  | nil => simp [leVal]
  | cons b bs ih =>
    have hb : b ≤ 1 := by rcases h b (by simp) with h' | h' <;> omega
    have hbs : IsBits bs := fun x hx => h x (by simp [hx])
    have hlt : leVal bs < 2 ^ bs.length := leVal_lt bs hbs
    simp only [List.map_cons, leVal, ih hbs, List.length_cons, pow_succ]
    omega

lemma bitsToNat_op_neg (bits : List Nat) (h : IsBits bits) :
    bitsToNat (op_neg bits) = 2 ^ bits.length - 1 - bitsToNat bits := by
  unfold bitsToNat op_neg
  rw [← List.map_reverse, leVal_map_neg bits.reverse ((isBits_reverse bits).mpr h),
    List.length_reverse]

lemma _one_length (L : Nat) (h : 1 ≤ L) : (_one L).length = L := by
  simp [_one]; omega

lemma _one_isBits (L : Nat) : IsBits (_one L) := by
  intro b hb
  rcases List.mem_append.mp hb with hb | hb
  · exact Or.inl (List.eq_of_mem_replicate hb)
  · simp at hb; omega

lemma bitsToNat_one (L : Nat) : bitsToNat (_one L) = 1 := by
  simp [bitsToNat, _one, List.reverse_append, List.reverse_replicate, leVal,
    leVal_replicate_zero]

lemma subStep_val (acc sb : List Nat) (L : Nat) (hL : 1 ≤ L)
    (hacc : acc.length = L) (hsb : sb.length = L)
    (hab : IsBits acc) (hsbb : IsBits sb) :
    subStep acc sb = .ok (natToBits L ((bitsToNat acc + (2 ^ L - bitsToNat sb)) % 2 ^ L)) := by
  have hsblt : bitsToNat sb < 2 ^ L := hsb ▸ bitsToNat_lt sb hsbb
  have hinvlen : (op_neg sb).length = L := by rw [op_neg_length, hsb]
  have haddend : op_add [op_neg sb, _one (op_neg sb).length]
      = .ok (natToBits L ((2 ^ L - bitsToNat sb) % 2 ^ L)) := by
    rw [op_add_val [op_neg sb, _one (op_neg sb).length] L (by simp)
      (by intro a ha
          rcases List.mem_pair.mp ha with rfl | rfl
          · exact hinvlen
          · rw [hinvlen]; exact _one_length L hL)
      (by intro a ha
          rcases List.mem_pair.mp ha with rfl | rfl
          · exact op_neg_isBits sb
          · exact _one_isBits _)]
    congr 2
    rw [List.map_cons, List.map_cons, List.map_nil, List.sum_cons, List.sum_cons,
      List.sum_nil, bitsToNat_one, bitsToNat_op_neg sb hsbb, hsb]
    congr 1
    omega
  unfold subStep
  rw [haddend]
  show op_add [acc, natToBits L ((2 ^ L - bitsToNat sb) % 2 ^ L)] = _
  rw [op_add_val [acc, natToBits L ((2 ^ L - bitsToNat sb) % 2 ^ L)] L (by simp)
    (by intro a ha
        rcases List.mem_pair.mp ha with rfl | rfl
        · exact hacc
        · exact natToBits_length L _)
    (by intro a ha
        rcases List.mem_pair.mp ha with rfl | rfl
        · exact hab
        · exact natToBits_isBits L _)]
  congr 2
  rw [List.map_cons, List.map_cons, List.map_nil, List.sum_cons, List.sum_cons,
    List.sum_nil, bitsToNat_natToBits, Nat.add_zero, Nat.mod_mod_of_dvd _ dvd_rfl,
    Nat.add_mod_mod]

lemma subStep_ok (acc sb : List Nat) (L : Nat) (hL : 1 ≤ L)
    (hacc : acc.length = L) (hsb : sb.length = L) :
    ∃ out, subStep acc sb = .ok out ∧ out.length = L ∧ IsBits out := by
  have hinvlen : (op_neg sb).length = L := by rw [op_neg_length, hsb]
  obtain ⟨addend, ha, halen, habits⟩ :=
    op_add_ok_exists [op_neg sb, _one (op_neg sb).length] L (by simp)
      (by intro a hmem
          rcases List.mem_pair.mp hmem with rfl | rfl
          · exact hinvlen
          · rw [hinvlen]; exact _one_length L hL)
  unfold subStep
  rw [ha]
  show (∃ out, op_add [acc, addend] = .ok out ∧ out.length = L ∧ IsBits out)
  exact op_add_ok_exists [acc, addend] L (by simp)
    (by intro a hmem
        rcases List.mem_pair.mp hmem with rfl | rfl
        · exact hacc
        · exact halen)

lemma subLoop_ok (subs : List (List Nat)) : ∀ (acc : List Nat) (L : Nat), 1 ≤ L →
    acc.length = L → (∀ sb ∈ subs, sb.length = L) →
    ∃ out, subs.foldlM subStep acc = .ok out ∧ out.length = L := by
  induction subs with
  | nil => intro acc L _ hacc _; exact ⟨acc, rfl, hacc⟩
  | cons sb rest ih =>
    intro acc L hL hacc hlen
    obtain ⟨acc', h1, h1len, _⟩ := subStep_ok acc sb L hL hacc (hlen sb (by simp))
    obtain ⟨out, h2, h2len⟩ := ih acc' L hL h1len (fun x hx => hlen x (by simp [hx]))
    refine ⟨out, ?_, h2len⟩
    rw [List.foldlM_cons, h1]
    exact h2

lemma subLoop_val (subs : List (List Nat)) : ∀ (acc : List Nat) (L : Nat), 1 ≤ L →
    acc.length = L → IsBits acc →
    (∀ sb ∈ subs, sb.length = L) → (∀ sb ∈ subs, IsBits sb) →
    subs.foldlM subStep acc
      = .ok (natToBits L ((bitsToNat acc
          + (subs.map (fun sb => 2 ^ L - bitsToNat sb)).sum) % 2 ^ L)) := by
  induction subs with
  | nil =>
    intro acc L _ hacc habits _ _
    simp only [List.foldlM_nil, List.map_nil, List.sum_nil, Nat.add_zero]
    have : natToBits L (bitsToNat acc % 2 ^ L) = acc := by
      apply bitsToNat_inj _ _ (by rw [natToBits_length, hacc]) (natToBits_isBits L _) habits
      rw [bitsToNat_natToBits, Nat.mod_mod_of_dvd _ dvd_rfl,
        Nat.mod_eq_of_lt (hacc ▸ bitsToNat_lt acc habits)]
    rw [this]
    rfl
  | cons sb rest ih =>
    intro acc L hL hacc habits hlen hbits
    rw [List.foldlM_cons, subStep_val acc sb L hL hacc (hlen sb (by simp)) habits
      (hbits sb (by simp))]
    show rest.foldlM subStep _ = _
    rw [ih (natToBits L ((bitsToNat acc + (2 ^ L - bitsToNat sb)) % 2 ^ L)) L hL
      (natToBits_length L _) (natToBits_isBits L _)
      (fun x hx => hlen x (by simp [hx])) (fun x hx => hbits x (by simp [hx]))]
    congr 2
    rw [bitsToNat_natToBits, Nat.mod_mod_of_dvd _ dvd_rfl, Nat.mod_add_mod,
      List.map_cons, List.sum_cons]
    congr 1
    omega

lemma op_sub_ok (args : List (List Nat)) (L : Nat) (h2 : 2 ≤ args.length) (hL : 1 ≤ L)
    (hlen : ∀ a ∈ args, a.length = L) :
    ∃ out, op_sub args = .ok out ∧ out.length = L := by
  have hne : args ≠ [] := by intro h; subst h; simp at h2
  rw [op_sub_eq, if_neg (by omega),
    if_pos ((sharesCommonLength_iff args hne).mpr ⟨L, hlen⟩)]
  cases args with
  | nil => simp at h2
  | cons a t =>
    exact subLoop_ok t a L hL (hlen a (by simp)) (fun x hx => hlen x (by simp [hx]))

lemma subStep_isBits_out (acc sb out : List Nat) (h : subStep acc sb = .ok out) :
    IsBits out := by
  unfold subStep at h
  cases ha : op_add [op_neg sb, _one (op_neg sb).length] with
  | error e => rw [ha] at h; exact absurd h (by simp [Bind.bind, Except.bind])
  | ok addend =>
    rw [ha] at h
    exact op_add_isBits_out [acc, addend] out h

lemma subLoop_isBits (subs : List (List Nat)) : ∀ (acc out : List Nat), IsBits acc →
    subs.foldlM subStep acc = .ok out → IsBits out := by
  induction subs with
  | nil =>
    intro acc out hacc h
    simp only [List.foldlM_nil] at h
    have : acc = out := Except.ok.inj h
    rwa [← this]
  | cons sb rest ih =>
    intro acc out hacc h
    rw [List.foldlM_cons] at h
    cases hs : subStep acc sb with
    | error e => rw [hs] at h; exact absurd h (by simp [Bind.bind, Except.bind])
    | ok acc' =>
      rw [hs] at h
      exact ih acc' out (subStep_isBits_out acc sb acc' hs) h

/-! ## Shift operators -/

lemma op_ls0_ok (s : Int) (bits : List Nat) (hs : 1 ≤ s) :
    op_ls0 s bits = .ok (bits.drop s.toNat ++ List.replicate (min s.toNat bits.length) 0) := by
  unfold op_ls0
  rw [if_neg (by omega), List.drop_replicate]
  have h : bits.length - (bits.length - s.toNat) = min s.toNat bits.length := by omega
  rw [h]

lemma op_ls1_ok (s : Int) (bits : List Nat) (hs : 1 ≤ s) :
    op_ls1 s bits = .ok (bits.drop s.toNat ++ List.replicate (min s.toNat bits.length) 1) := by
  unfold op_ls1
  rw [if_neg (by omega), List.drop_replicate]
  have h : bits.length - (bits.length - s.toNat) = min s.toNat bits.length := by omega
  rw [h]

lemma op_rs0_ok (s : Int) (bits : List Nat) (hs : 1 ≤ s) :
    op_rs0 s bits = .ok (List.replicate (min s.toNat bits.length) 0
      ++ bits.take (bits.length - s.toNat)) := by
  unfold op_rs0
  rw [if_neg (by omega), List.take_replicate]

lemma op_rs1_ok (s : Int) (bits : List Nat) (hs : 1 ≤ s) :
    op_rs1 s bits = .ok (List.replicate (min s.toNat bits.length) 1
      ++ bits.take (bits.length - s.toNat)) := by
  unfold op_rs1
  rw [if_neg (by omega), List.take_replicate]

/-! ## Element-wise facts for the boolean combinators -/

lemma zipWith_getD (f : Nat → Nat → Nat) : ∀ (a b : List Nat) (i : Nat),
    i < a.length → i < b.length →
    (List.zipWith f a b).getD i 0 = f (a.getD i 0) (b.getD i 0) := by
  intro a
  induction a with
  | nil => intro b i hi _; simp at hi
  | cons x xs ih =>
    intro b i hia hib
    cases b with
    | nil => simp at hib
    | cons y ys =>
      cases i with
      | zero => simp [List.zipWith_cons_cons]
      | succ i =>
        simp only [List.zipWith_cons_cons, List.getD_cons_succ]
        exact ih ys i (by simpa using hia) (by simpa using hib)

lemma zipWith_isBits (f : Nat → Nat → Nat)
    (hf : ∀ x y, (x = 0 ∨ x = 1) → (y = 0 ∨ y = 1) → (f x y = 0 ∨ f x y = 1)) :
    ∀ (a b : List Nat), IsBits a → IsBits b → IsBits (List.zipWith f a b) := by
  intro a
  induction a with
  | nil => intro b _ _ x hx; simp at hx
  | cons x xs ih =>
    intro b ha hb
    cases b with
    | nil => intro z hz; simp at hz
    | cons y ys =>
      intro z hz
      simp only [List.zipWith_cons_cons, List.mem_cons] at hz
      rcases hz with hz | hz
      · subst hz; exact hf x y (ha x (by simp)) (hb y (by simp))
      · exact ih ys (fun u hu => ha u (by simp [hu])) (fun u hu => hb u (by simp [hu])) z hz

lemma foldl_zipWith_length (f : Nat → Nat → Nat) (args : List (List Nat)) :
    ∀ (acc : List Nat) (L : Nat), acc.length = L → (∀ a ∈ args, a.length = L) →
    (args.foldl (fun accumulator arg => List.zipWith f accumulator arg) acc).length = L := by
  induction args with
  | nil => intro acc L h _; simpa using h
  | cons a rest ih =>
    intro acc L h hlen
    simp only [List.foldl_cons]
    exact ih (List.zipWith f acc a) L
      (by rw [List.length_zipWith, h, hlen a (by simp)]; omega)
      (fun x hx => hlen x (by simp [hx]))

lemma foldl_zipWith_isBits (f : Nat → Nat → Nat)
    (hf : ∀ x y, (x = 0 ∨ x = 1) → (y = 0 ∨ y = 1) → (f x y = 0 ∨ f x y = 1))
    (args : List (List Nat)) : ∀ (acc : List Nat), IsBits acc →
    (∀ a ∈ args, IsBits a) →
    IsBits (args.foldl (fun accumulator arg => List.zipWith f accumulator arg) acc) := by
  induction args with
  | nil => intro acc h _; simpa using h
  | cons a rest ih =>
    intro acc hacc hargs
    simp only [List.foldl_cons]
    exact ih (List.zipWith f acc a) (zipWith_isBits f hf acc a hacc (hargs a (by simp)))
      (fun x hx => hargs x (by simp [hx]))

lemma foldl_zipWith_add_getD (args : List (List Nat)) :
    ∀ (acc : List Nat) (L : Nat) (i : Nat), acc.length = L →
    (∀ a ∈ args, a.length = L) → i < L →
    (args.foldl (fun counter arg => List.zipWith (fun x y => x + y) counter arg) acc).getD i 0
      = acc.getD i 0 + (args.map (fun a => a.getD i 0)).sum := by
  induction args with
  | nil => intro acc L i _ _ _; simp
  | cons a rest ih =>
    intro acc L i hacc hlen hi
    have hA : a.length = L := hlen a (by simp)
    simp only [List.foldl_cons]
    rw [ih (List.zipWith (fun x y => x + y) acc a) L i
      (by rw [List.length_zipWith, hacc, hA]; omega)
      (fun x hx => hlen x (by simp [hx])) hi]
    rw [zipWith_getD _ acc a i (by omega) (by omega), List.map_cons, List.sum_cons]
    omega

lemma sum_eq_countP (l : List Nat) (h : ∀ x ∈ l, x = 0 ∨ x = 1) :
    l.sum = l.countP (fun x => x == 1) := by
  induction l with
  | nil => simp
  | cons x xs ih =>
    have hxs := ih (fun y hy => h y (by simp [hy]))
    rcases h x (by simp) with rfl | rfl
    · simpa [List.countP_cons] using hxs
    · simp [List.countP_cons, hxs]; omega

/-! ## Two-operand closed forms and bit identities -/

lemma dedup_pair_len (x : Nat) : ([x, x] : List Nat).dedup.length = 1 := by
  rw [List.dedup_cons_of_mem (by simp)]
  simp

lemma op_and_pair (a b : List Nat) (h : b.length = a.length) :
    op_and [a, b] = .ok (List.zipWith (fun x y => x &&& y)
      (List.zipWith (fun x y => x &&& y) (List.replicate a.length 1) a) b) := by
  rw [op_and_eq, if_neg (by simp), if_pos (by simp [h, dedup_pair_len])]
  rfl

lemma op_or_pair (a b : List Nat) (h : b.length = a.length) :
    op_or [a, b] = .ok (List.zipWith (fun x y => x ||| y)
      (List.zipWith (fun x y => x ||| y) (List.replicate a.length 0) a) b) := by
  rw [op_or_eq, if_neg (by simp), if_pos (by simp [h, dedup_pair_len])]
  rfl

lemma op_xor_pair (a b : List Nat) (h : b.length = a.length) :
    op_xor [a, b] = .ok ((List.zipWith (fun x y => x + y)
      (List.zipWith (fun x y => x + y) (List.replicate a.length 0) a) b).map
        (fun bit => if bit = 1 then 1 else 0)) := by
  rw [op_xor_eq, if_neg (by simp), if_pos (by simp [h, dedup_pair_len])]
  rfl

lemma zipWith_zero_add (a : List Nat) :
    List.zipWith (fun x y => x + y) (List.replicate a.length 0) a = a := by
  induction a with
  | nil => rfl
  | cons x xs ih => simp [List.replicate_succ, ih]

lemma zipWith_zero_lor (a : List Nat) :
    List.zipWith (fun x y => x ||| y) (List.replicate a.length 0) a = a := by
  induction a with
  | nil => rfl
  | cons x xs ih => simp [List.replicate_succ, ih]

lemma zipWith_one_land (a : List Nat) (h : IsBits a) :
    List.zipWith (fun x y => x &&& y) (List.replicate a.length 1) a = a := by
  induction a with
  | nil => rfl
  | cons x xs ih =>
    have hx : (1 : Nat) &&& x = x := by
      rcases h x (by simp) with rfl | rfl <;> decide
    simp only [List.length_cons, List.replicate_succ, List.zipWith_cons_cons, hx]
    rw [ih (fun u hu => h u (by simp [hu]))]

/-! ## Error shapes reachable from op_sub's internal additions -/

lemma op_add_pair_err (x y : List Nat) (e : BitopsError)
    (h : op_add [x, y] = .error e) : e = .lengthMismatch [x.length, y.length] := by
  rw [op_add_eq] at h
  split at h
  · simp at *
  · split at h
    · exact absurd h (by simp)
    · simpa using (Except.error.inj h).symm

lemma subStep_err (acc sb : List Nat) (e : BitopsError)
    (h : subStep acc sb = .error e) : ∃ ls, e = .lengthMismatch ls := by
  unfold subStep at h
  cases ha : op_add [op_neg sb, _one (op_neg sb).length] with
  | error e' =>
    rw [ha] at h
    have : e' = e := by simpa [Bind.bind, Except.bind] using h
    exact ⟨_, this ▸ op_add_pair_err _ _ e' ha⟩
  | ok addend =>
    rw [ha] at h
    exact ⟨_, op_add_pair_err _ _ e h⟩

lemma subLoop_err (subs : List (List Nat)) : ∀ (acc : List Nat) (e : BitopsError),
    subs.foldlM subStep acc = .error e → ∃ ls, e = .lengthMismatch ls := by
  induction subs with
  | nil => intro acc e h; exact absurd h (by simp [pure, Except.pure])
  | cons sb rest ih =>
    intro acc e h
    rw [List.foldlM_cons] at h
    cases hs : subStep acc sb with
    | error e' =>
      rw [hs] at h
      have : e' = e := by simpa [Bind.bind, Except.bind] using h
      exact this ▸ subStep_err acc sb e' hs
    | ok acc' =>
      rw [hs] at h
      exact ih acc' e h

lemma subStep_len0 (acc : List Nat) :
    subStep acc [] = .error (.lengthMismatch [0, 1]) := rfl

lemma subLoop_err_len0 (subs : List (List Nat)) (hne : subs ≠ [])
    (h0 : ∀ sb ∈ subs, sb.length = 0) (acc : List Nat) :
    subs.foldlM subStep acc = .error (.lengthMismatch [0, 1]) := by
  cases subs with
  | nil => exact absurd rfl hne
  | cons sb rest =>
    have : sb = [] := List.eq_nil_of_length_eq_zero (h0 sb (by simp))
    subst this
    rw [List.foldlM_cons, subStep_len0]
    rfl

/-! ## Error behaviour, uniformly over the validation prelude -/

lemma prelude_iffs (op : List (List Nat) → Except BitopsError (List Nat))
    (compute : List (List Nat) → List Nat)
    (hop : ∀ args, op args =
      if args.length < 2 then .error (.arity 2 args.length)
      else if (args.map List.length).dedup.length = 1 then .ok (compute args)
      else .error (.lengthMismatch (args.map List.length)))
    (args : List (List Nat)) :
    ((op args = .error (.arity 2 args.length)) ↔ args.length < 2) ∧
    ((∃ ls, op args = .error (.lengthMismatch ls)) ↔
      2 ≤ args.length ∧ ¬ sharesCommonLength args) ∧
    ((∃ out, op args = .ok out) ↔ 2 ≤ args.length ∧ sharesCommonLength args) := by
  rw [hop args]
  by_cases h1 : args.length < 2
  · rw [if_pos h1]
    refine ⟨by simp [h1], ?_, ?_⟩
    · constructor
      · rintro ⟨ls, hls⟩; exact absurd (Except.error.inj hls) (by simp)
      · rintro ⟨h2, _⟩; omega
    · constructor
      · rintro ⟨out, hout⟩; exact absurd hout (by simp)
      · rintro ⟨h2, _⟩; omega
  · rw [if_neg h1]
    have hne : args ≠ [] := by intro h; subst h; simp at h1
    by_cases h2 : (args.map List.length).dedup.length = 1
    · rw [if_pos h2]
      have hs : sharesCommonLength args := (sharesCommonLength_iff args hne).mp h2
      refine ⟨?_, ?_, ?_⟩
      · constructor
        · intro h; exact absurd h (by simp)
        · intro h; omega
      · constructor
        · rintro ⟨ls, hls⟩; exact absurd hls (by simp)
        · rintro ⟨_, hn⟩; exact absurd hs hn
      · exact ⟨fun _ => ⟨by omega, hs⟩, fun _ => ⟨compute args, rfl⟩⟩
    · rw [if_neg h2]
      have hs : ¬ sharesCommonLength args := fun hsh =>
        h2 ((sharesCommonLength_iff args hne).mpr hsh)
      refine ⟨?_, ?_, ?_⟩
      · constructor
        · intro h; exact absurd (Except.error.inj h) (by simp)
        · intro h; omega
      · exact ⟨fun _ => ⟨by omega, hs⟩, fun _ => ⟨_, rfl⟩⟩
      · constructor
        · rintro ⟨out, hout⟩; exact absurd hout (by simp)
        · rintro ⟨_, hsh⟩; exact absurd hsh hs

lemma shift_iffs (op : Int → List Nat → Except BitopsError (List Nat))
    (compute : Int → List Nat → List Nat)
    (hop : ∀ s bits, op s bits =
      if s < 1 then .error (.invalidShift s) else .ok (compute s bits))
    (s : Int) (bits : List Nat) :
    ((op s bits = .error (.invalidShift s)) ↔ s < 1) ∧
    ((∃ out, op s bits = .ok out) ↔ 1 ≤ s) := by
  rw [hop s bits]
  by_cases h : s < 1
  · rw [if_pos h]
    refine ⟨by simp [h], ?_⟩
    constructor
    · rintro ⟨o, ho⟩; exact absurd ho (by simp)
    · intro h1; omega
  · rw [if_neg h]
    refine ⟨⟨fun hh => absurd hh (by simp), fun hh => absurd hh h⟩, ?_⟩
    exact ⟨fun _ => by omega, fun _ => ⟨_, rfl⟩⟩

/-! ## Remaining support lemmas for the claims -/

lemma op_sub_err_len0 (args : List (List Nat)) (h2 : 2 ≤ args.length)
    (h0 : ∀ a ∈ args, a.length = 0) : op_sub args = .error (.lengthMismatch [0, 1]) := by
  have hne : args ≠ [] := by intro h; subst h; simp at h2
  rw [op_sub_eq, if_neg (by omega), if_pos ((sharesCommonLength_iff args hne).mpr ⟨0, h0⟩)]
  apply subLoop_err_len0
  · cases args with
    | nil => simp at h2
    | cons a t =>
      cases t with
      | nil => simp at h2
      | cons b t' => simp
  · exact fun sb hsb => h0 sb (List.mem_of_mem_tail hsb)

lemma op_sub_pair_val (x b : List Nat) (L : Nat) (hL : 1 ≤ L)
    (hx : x.length = L) (hb : b.length = L) (hX : IsBits x) (hB : IsBits b) :
    op_sub [x, b] = .ok (natToBits L ((bitsToNat x + (2 ^ L - bitsToNat b)) % 2 ^ L)) := by
  rw [op_sub_eq, if_neg (by simp), if_pos (by simp [hx, hb, dedup_pair_len])]
  show ([b] : List (List Nat)).foldlM subStep x = _
  rw [subLoop_val [b] x L hL hx hX (by simpa using hb) (by simpa using hB)]
  congr 2

lemma op_sub_arity_iff (args : List (List Nat)) :
    (op_sub args = .error (.arity 2 args.length)) ↔ args.length < 2 := by
  rw [op_sub_eq]
  by_cases h1 : args.length < 2
  · simp [h1]
  · rw [if_neg h1]
    constructor
    · intro h
      by_cases h2 : (args.map List.length).dedup.length = 1
      · rw [if_pos h2] at h
        obtain ⟨ls, hls⟩ := subLoop_err _ _ _ h
        exact absurd hls (by simp)
      · rw [if_neg h2] at h
        exact absurd (Except.error.inj h) (by simp)
    · intro h; omega

lemma op_sub_ok_iff (args : List (List Nat)) :
    (∃ out, op_sub args = .ok out) ↔
      2 ≤ args.length ∧ ∃ L, 1 ≤ L ∧ ∀ a ∈ args, a.length = L := by
  constructor
  · rintro ⟨out, hout⟩
    rw [op_sub_eq] at hout
    by_cases h1 : args.length < 2
    · rw [if_pos h1] at hout; exact absurd hout (by simp)
    · rw [if_neg h1] at hout
      by_cases h2 : (args.map List.length).dedup.length = 1
      · rw [if_pos h2] at hout
        have hne : args ≠ [] := by intro h; subst h; simp at h1
        obtain ⟨L, hL⟩ := (sharesCommonLength_iff args hne).mp h2
        refine ⟨by omega, L, ?_, hL⟩
        by_contra hL0
        have hL0' : L = 0 := by omega
        subst hL0'
        have htne : args.tail ≠ [] := by
          cases args with
          | nil => simp at h1
          | cons a t =>
            cases t with
            | nil => simp at h1
            | cons b t' => simp
        rw [subLoop_err_len0 args.tail htne
          (fun sb hsb => hL sb (List.mem_of_mem_tail hsb)) (args.headD [])] at hout
        exact absurd hout (by simp)
      · rw [if_neg h2] at hout; exact absurd hout (by simp)
  · rintro ⟨h2, L, hL1, hL⟩
    obtain ⟨out, hout, _⟩ := op_sub_ok args L h2 hL1 hL
    exact ⟨out, hout⟩

lemma op_sub_lenerr_iff (args : List (List Nat)) :
    (∃ ls, op_sub args = .error (.lengthMismatch ls)) ↔
      2 ≤ args.length ∧ (¬ sharesCommonLength args ∨ ∀ a ∈ args, a.length = 0) := by
  constructor
  · rintro ⟨ls, hls⟩
    have h2 : 2 ≤ args.length := by
      by_contra hlt
      rw [op_sub_eq, if_pos (by omega)] at hls
      exact absurd (Except.error.inj hls) (by simp)
    refine ⟨h2, ?_⟩
    by_cases hsh : sharesCommonLength args
    · right
      obtain ⟨L, hL⟩ := hsh
      have hL0 : L = 0 := by
        rcases Nat.eq_zero_or_pos L with h | h
        · exact h
        · obtain ⟨out, hout, _⟩ := op_sub_ok args L h2 h hL
          rw [hout] at hls
          exact absurd hls (by simp)
      intro a ha
      rw [hL a ha, hL0]
    · left; exact hsh
  · rintro ⟨h2, hcase⟩
    have hne : args ≠ [] := by intro h; subst h; simp at h2
    rcases hcase with hn | h0
    · refine ⟨args.map List.length, ?_⟩
      rw [op_sub_eq, if_neg (by omega),
        if_neg (fun h => hn ((sharesCommonLength_iff args hne).mp h))]
    · exact ⟨[0, 1], op_sub_err_len0 args h2 h0⟩

lemma isBits_replicate_one (L : Nat) : IsBits (List.replicate L 1) := by
  intro b hb
  exact Or.inr (List.eq_of_mem_replicate hb)

lemma op_and_isBits_out (args : List (List Nat)) (out : List Nat)
    (hargs : ∀ a ∈ args, IsBits a) (h : op_and args = .ok out) : IsBits out := by
  rw [op_and_eq] at h
  split at h
  · exact absurd h (by simp)
  · split at h
    · rw [← Except.ok.inj h]
      exact foldl_zipWith_isBits _ (fun x y hx hy => by
        rcases hx with rfl | rfl <;> rcases hy with rfl | rfl <;> decide)
        args _ (isBits_replicate_one _) hargs
    · exact absurd h (by simp)

lemma op_or_isBits_out (args : List (List Nat)) (out : List Nat)
    (hargs : ∀ a ∈ args, IsBits a) (h : op_or args = .ok out) : IsBits out := by
  rw [op_or_eq] at h
  split at h
  · exact absurd h (by simp)
  · split at h
    · rw [← Except.ok.inj h]
      exact foldl_zipWith_isBits _ (fun x y hx hy => by
        rcases hx with rfl | rfl <;> rcases hy with rfl | rfl <;> decide)
        args _ (isBits_replicate_zero _) hargs
    · exact absurd h (by simp)

lemma op_xor_isBits_out (args : List (List Nat)) (out : List Nat)
    (h : op_xor args = .ok out) : IsBits out := by
  rw [op_xor_eq] at h
  split at h
  · exact absurd h (by simp)
  · split at h
    · rw [← Except.ok.inj h]
      intro b hb
      obtain ⟨x, _, rfl⟩ := List.mem_map.mp hb
      split <;> simp
    · exact absurd h (by simp)

lemma op_sub_isBits_out (args : List (List Nat)) (out : List Nat)
    (hargs : ∀ a ∈ args, IsBits a) (h : op_sub args = .ok out) : IsBits out := by
  rw [op_sub_eq] at h
  split at h
  · exact absurd h (by simp)
  · rename_i h1
    split at h
    · cases args with
      | nil => simp at h1
      | cons a t =>
        exact subLoop_isBits t a out (hargs a (by simp)) h
    · exact absurd h (by simp)

lemma op_neg_cons (x : Nat) (xs : List Nat) :
    op_neg (x :: xs) = (x + 1) % 2 :: op_neg xs := rfl

lemma xor_zip_identity : ∀ (a b : List Nat), IsBits a → IsBits b →
    (List.zipWith (fun x y => x + y) a b).map (fun bit => if bit = 1 then 1 else 0)
      = List.zipWith (fun x y => x &&& y) (List.zipWith (fun x y => x ||| y) a b)
          (op_neg (List.zipWith (fun x y => x &&& y) a b)) := by
  intro a
  induction a with
  | nil => intro b _ _; cases b <;> rfl
  | cons x xs ih =>
    intro b hA hB
    cases b with
    | nil => rfl
    | cons y ys =>
      simp only [List.zipWith_cons_cons, List.map_cons, op_neg_cons]
      congr 1
      · rcases hA x (by simp) with rfl | rfl <;> rcases hB y (by simp) with rfl | rfl <;> decide
      · exact ih ys (fun u hu => hA u (by simp [hu])) (fun u hu => hB u (by simp [hu]))

/-! ## The claims -/

/-- C1, counterexample: for the three one-bit operands `[1], [1], [1]` the
count of operands whose bit 0 is 1 is 3, which is odd, yet `op_xor` returns
the bit 0 (the code tests `count == 1`, not parity). -/
theorem c1_counterexample :
    op_xor [[1], [1], [1]] = .ok [0] ∧
    ([[1], [1], [1]] : List (List Nat)).countP (fun a => a.getD 0 0 == 1) % 2 = 1 :=
  ⟨rfl, by decide⟩

/-- C1 (amended): for k ≥ 2 equal-length bit vectors, XOR returns the
length-L vector whose bit i is 1 if and only if the number of operands whose
bit i is 1 is EXACTLY ONE (for two operands this coincides with odd parity;
for 3 or more it does not). -/
theorem c1_xor_exactly_one (args : List (List Nat)) (L : Nat)
    (h2 : 2 ≤ args.length) (hlen : ∀ a ∈ args, a.length = L)
    (hbits : ∀ a ∈ args, IsBits a) :
    ∃ out, op_xor args = .ok out ∧ out.length = L ∧
      ∀ i, i < L → out.getD i 0
        = if args.countP (fun a => a.getD i 0 == 1) = 1 then 1 else 0 := by
  have hne : args ≠ [] := by intro h; subst h; simp at h2
  have hhead : (args.headD []).length = L := by
    cases args with
    | nil => simp at h2
    | cons a t => exact hlen a (by simp)
  rw [op_xor_eq, if_neg (by omega),
    if_pos ((sharesCommonLength_iff args hne).mpr ⟨L, hlen⟩), hhead]
  have hClen : (args.foldl (fun counter arg => List.zipWith (fun x y => x + y) counter arg)
      (List.replicate L 0)).length = L :=
    foldl_zipWith_length _ args _ L (by simp) hlen
  refine ⟨_, rfl, by simp [hClen], ?_⟩
  intro i hi
  have hgetD : (args.foldl (fun counter arg => List.zipWith (fun x y => x + y) counter arg)
        (List.replicate L 0)).getD i 0
      = (List.replicate L 0).getD i 0 + (args.map (fun a => a.getD i 0)).sum :=
    foldl_zipWith_add_getD args _ L i (by simp) hlen hi
  have hrep : (List.replicate L (0 : Nat)).getD i 0 = 0 := by
    rw [List.getD_eq_getElem _ _ (by simpa using hi)]
    simp
  have hsum : (args.map (fun a => a.getD i 0)).sum
      = (args.map (fun a => a.getD i 0)).countP (fun x => x == 1) := by
    apply sum_eq_countP
    intro x hx
    obtain ⟨a, ha, rfl⟩ := List.mem_map.mp hx
    have haL : i < a.length := by rw [hlen a ha]; exact hi
    rw [List.getD_eq_getElem _ _ haL]
    exact hbits a ha _ (List.getElem_mem haL)
  have hcount : (args.map (fun a => a.getD i 0)).countP (fun x => x == 1)
      = args.countP (fun a => a.getD i 0 == 1) := by
    rw [List.countP_map]
    rfl
  have hiC : i < (args.foldl (fun counter arg => List.zipWith (fun x y => x + y) counter arg)
      (List.replicate L 0)).length := by omega
  rw [List.getD_eq_getElem _ 0 (by simpa [hClen] using hi), List.getElem_map,
    ← List.getD_eq_getElem _ 0 hiC, hgetD, hrep, Nat.zero_add, hsum, hcount]

/-- C1, witness for the amended theorem at three concrete 2-bit operands. -/
theorem c1_witness :
    ∃ out, op_xor [[1,1],[1,0],[1,1]] = .ok out ∧ out.length = 2 ∧
      ∀ i, i < 2 → out.getD i 0
        = if ([[1,1],[1,0],[1,1]] : List (List Nat)).countP
            (fun a => a.getD i 0 == 1) = 1 then 1 else 0 :=
  c1_xor_exactly_one [[1,1],[1,0],[1,1]] 2 (by decide) (by decide) (by decide)

/-- C2: for k ≥ 2 bit vectors of equal length L, ADD returns the length-L
big-endian binary encoding of the sum of the operands' unsigned values
modulo 2^L (ripple carry with the final carry-out discarded). -/
theorem c2_add_modular (args : List (List Nat)) (L : Nat) (h2 : 2 ≤ args.length)
    (hlen : ∀ a ∈ args, a.length = L) (hbits : ∀ a ∈ args, IsBits a) :
    op_add args = .ok (natToBits L ((args.map bitsToNat).sum % 2 ^ L)) ∧
    (natToBits L ((args.map bitsToNat).sum % 2 ^ L)).length = L ∧
    IsBits (natToBits L ((args.map bitsToNat).sum % 2 ^ L)) :=
  ⟨op_add_val args L h2 hlen hbits, natToBits_length L _, natToBits_isBits L _⟩

/-- C2, witness at the documented 8-bit example (197 + 22 = 219). -/
theorem c2_witness :
    op_add [[1,1,0,0,0,1,0,1],[0,0,0,1,0,1,1,0]]
      = .ok (natToBits 8 ((([[1,1,0,0,0,1,0,1],[0,0,0,1,0,1,1,0]] :
          List (List Nat)).map bitsToNat).sum % 2 ^ 8)) ∧
    (natToBits 8 ((([[1,1,0,0,0,1,0,1],[0,0,0,1,0,1,1,0]] :
        List (List Nat)).map bitsToNat).sum % 2 ^ 8)).length = 8 ∧
    IsBits (natToBits 8 ((([[1,1,0,0,0,1,0,1],[0,0,0,1,0,1,1,0]] :
        List (List Nat)).map bitsToNat).sum % 2 ^ 8)) :=
  c2_add_modular [[1,1,0,0,0,1,0,1],[0,0,0,1,0,1,1,0]] 8 (by decide) (by decide) (by decide)

/-- C3, counterexample: `op_sub` applied to the single operand `[1]` raises
the arity error instead of returning the operand unchanged. -/
theorem c3_counterexample :
    op_sub [[1]] = .error (.arity 2 1) ∧ op_sub [[1]] ≠ .ok [1] := by
  refine ⟨rfl, ?_⟩
  intro h
  rw [show op_sub [[1]] = Except.error (BitopsError.arity 2 1) from rfl] at h
  exact Except.noConfusion h

/-- C3 (amended): when SUBTRACT is called with exactly one operand it raises
the arity error (minimum 2, given 1); the single-operand early-return branch
in the code is unreachable. -/
theorem c3_single_operand_raises (a : List Nat) :
    op_sub [a] = .error (.arity 2 1) := rfl

/-- C4: for shift amount s ≥ 1, each left shift returns `input[s:]` followed
by `min s L` fill bits, each right shift returns `min s L` fill bits followed
by `input[0 : L-s]`, when s ≥ L the output is entirely fill bits, and in all
cases the output length equals the input length (shifted-out bits are
discarded, not wrapped). -/
theorem c4_shifts (s : Int) (bits : List Nat) (hs : 1 ≤ s) :
    op_ls0 s bits = .ok (bits.drop s.toNat ++ List.replicate (min s.toNat bits.length) 0) ∧
    op_ls1 s bits = .ok (bits.drop s.toNat ++ List.replicate (min s.toNat bits.length) 1) ∧
    op_rs0 s bits = .ok (List.replicate (min s.toNat bits.length) 0
      ++ bits.take (bits.length - s.toNat)) ∧
    op_rs1 s bits = .ok (List.replicate (min s.toNat bits.length) 1
      ++ bits.take (bits.length - s.toNat)) ∧
    (bits.drop s.toNat ++ List.replicate (min s.toNat bits.length) 0).length = bits.length ∧
    (bits.drop s.toNat ++ List.replicate (min s.toNat bits.length) 1).length = bits.length ∧
    (List.replicate (min s.toNat bits.length) 0
      ++ bits.take (bits.length - s.toNat)).length = bits.length ∧
    (List.replicate (min s.toNat bits.length) 1
      ++ bits.take (bits.length - s.toNat)).length = bits.length ∧
    (bits.length ≤ s.toNat →
      op_ls0 s bits = .ok (List.replicate bits.length 0) ∧
      op_ls1 s bits = .ok (List.replicate bits.length 1) ∧
      op_rs0 s bits = .ok (List.replicate bits.length 0) ∧
      op_rs1 s bits = .ok (List.replicate bits.length 1)) := by
  refine ⟨op_ls0_ok s bits hs, op_ls1_ok s bits hs, op_rs0_ok s bits hs, op_rs1_ok s bits hs,
    ?_, ?_, ?_, ?_, ?_⟩
  · simp only [List.length_append, List.length_drop, List.length_replicate]; omega
  · simp only [List.length_append, List.length_drop, List.length_replicate]; omega
  · simp only [List.length_append, List.length_replicate, List.length_take]; omega
  · simp only [List.length_append, List.length_replicate, List.length_take]; omega
  · intro hsl
    have hdrop : bits.drop s.toNat = [] := List.drop_eq_nil_of_le hsl
    have hmin : min s.toNat bits.length = bits.length := by omega
    have htake : bits.length - s.toNat = 0 := by omega
    refine ⟨?_, ?_, ?_, ?_⟩
    · rw [op_ls0_ok s bits hs, hdrop, hmin, List.nil_append]
    · rw [op_ls1_ok s bits hs, hdrop, hmin, List.nil_append]
    · rw [op_rs0_ok s bits hs, hmin, htake, List.take_zero, List.append_nil]
    · rw [op_rs1_ok s bits hs, hmin, htake, List.take_zero, List.append_nil]

/-- C4, witness at s = 2 on the documented 8-bit vector. -/
theorem c4_witness :
    op_ls0 2 [1,1,0,0,0,1,0,1] = .ok ([1,1,0,0,0,1,0,1].drop (Int.toNat 2)
      ++ List.replicate (min (Int.toNat 2) ([1,1,0,0,0,1,0,1] : List Nat).length) 0) ∧
    op_ls1 2 [1,1,0,0,0,1,0,1] = .ok ([1,1,0,0,0,1,0,1].drop (Int.toNat 2)
      ++ List.replicate (min (Int.toNat 2) ([1,1,0,0,0,1,0,1] : List Nat).length) 1) ∧
    op_rs0 2 [1,1,0,0,0,1,0,1] = .ok (List.replicate
        (min (Int.toNat 2) ([1,1,0,0,0,1,0,1] : List Nat).length) 0
      ++ [1,1,0,0,0,1,0,1].take (([1,1,0,0,0,1,0,1] : List Nat).length - Int.toNat 2)) ∧
    op_rs1 2 [1,1,0,0,0,1,0,1] = .ok (List.replicate
        (min (Int.toNat 2) ([1,1,0,0,0,1,0,1] : List Nat).length) 1
      ++ [1,1,0,0,0,1,0,1].take (([1,1,0,0,0,1,0,1] : List Nat).length - Int.toNat 2)) ∧
    ([1,1,0,0,0,1,0,1].drop (Int.toNat 2)
      ++ List.replicate (min (Int.toNat 2) ([1,1,0,0,0,1,0,1] : List Nat).length) 0).length
        = ([1,1,0,0,0,1,0,1] : List Nat).length ∧
    ([1,1,0,0,0,1,0,1].drop (Int.toNat 2)
      ++ List.replicate (min (Int.toNat 2) ([1,1,0,0,0,1,0,1] : List Nat).length) 1).length
        = ([1,1,0,0,0,1,0,1] : List Nat).length ∧
    (List.replicate (min (Int.toNat 2) ([1,1,0,0,0,1,0,1] : List Nat).length) 0
      ++ [1,1,0,0,0,1,0,1].take (([1,1,0,0,0,1,0,1] : List Nat).length - Int.toNat 2)).length
        = ([1,1,0,0,0,1,0,1] : List Nat).length ∧
    (List.replicate (min (Int.toNat 2) ([1,1,0,0,0,1,0,1] : List Nat).length) 1
      ++ [1,1,0,0,0,1,0,1].take (([1,1,0,0,0,1,0,1] : List Nat).length - Int.toNat 2)).length
        = ([1,1,0,0,0,1,0,1] : List Nat).length ∧
    (([1,1,0,0,0,1,0,1] : List Nat).length ≤ Int.toNat 2 →
      op_ls0 2 [1,1,0,0,0,1,0,1] = .ok (List.replicate ([1,1,0,0,0,1,0,1] : List Nat).length 0) ∧
      op_ls1 2 [1,1,0,0,0,1,0,1] = .ok (List.replicate ([1,1,0,0,0,1,0,1] : List Nat).length 1) ∧
      op_rs0 2 [1,1,0,0,0,1,0,1] = .ok (List.replicate ([1,1,0,0,0,1,0,1] : List Nat).length 0) ∧
      op_rs1 2 [1,1,0,0,0,1,0,1] = .ok (List.replicate ([1,1,0,0,0,1,0,1] : List Nat).length 1)) :=
  c4_shifts 2 [1,1,0,0,0,1,0,1] (by decide)

lemma op_ls0_isBits_out (s : Int) (bits out : List Nat) (hbits : IsBits bits)
    (h : op_ls0 s bits = .ok out) : IsBits out := by
  unfold op_ls0 at h
  split at h
  · exact absurd h (by simp)
  · rw [← Except.ok.inj h]
    intro b hb
    rcases List.mem_append.mp hb with hb | hb
    · exact hbits b (List.mem_of_mem_drop hb)
    · exact Or.inl (List.eq_of_mem_replicate (List.mem_of_mem_drop hb))

lemma op_ls1_isBits_out (s : Int) (bits out : List Nat) (hbits : IsBits bits)
    (h : op_ls1 s bits = .ok out) : IsBits out := by
  unfold op_ls1 at h
  split at h
  · exact absurd h (by simp)
  · rw [← Except.ok.inj h]
    intro b hb
    rcases List.mem_append.mp hb with hb | hb
    · exact hbits b (List.mem_of_mem_drop hb)
    · exact Or.inr (List.eq_of_mem_replicate (List.mem_of_mem_drop hb))

lemma op_rs0_isBits_out (s : Int) (bits out : List Nat) (hbits : IsBits bits)
    (h : op_rs0 s bits = .ok out) : IsBits out := by
  unfold op_rs0 at h
  split at h
  · exact absurd h (by simp)
  · rw [← Except.ok.inj h]
    intro b hb
    rcases List.mem_append.mp hb with hb | hb
    · exact Or.inl (List.eq_of_mem_replicate (List.mem_of_mem_take hb))
    · exact hbits b (List.mem_of_mem_take hb)

lemma op_rs1_isBits_out (s : Int) (bits out : List Nat) (hbits : IsBits bits)
    (h : op_rs1 s bits = .ok out) : IsBits out := by
  unfold op_rs1 at h
  split at h
  · exact absurd h (by simp)
  · rw [← Except.ok.inj h]
    intro b hb
    rcases List.mem_append.mp hb with hb | hb
    · exact Or.inr (List.eq_of_mem_replicate (List.mem_of_mem_take hb))
    · exact hbits b (List.mem_of_mem_take hb)

/-- C5, counterexample: `op_sub` on two empty operands satisfies the claimed
success condition (two operands, one shared length) yet raises a
length-mismatch error from its internal addition, because `_one 0` has
length 1. -/
theorem c5_counterexample :
    ¬ ((∃ out, op_sub [([] : List Nat), []] = .ok out) ↔
      (2 ≤ ([[], []] : List (List Nat)).length ∧
        sharesCommonLength [([] : List Nat), []])) := by
  intro h
  obtain ⟨out, hout⟩ := h.mpr ⟨by decide, ⟨0, by simp⟩⟩
  rw [show op_sub [([] : List Nat), []]
    = Except.error (BitopsError.lengthMismatch [0, 1]) from rfl] at hout
  exact Except.noConfusion hout

/-- C5 (amended): AND, OR, XOR and ADD raise the arity error iff given fewer
than 2 operands, raise a length-mismatch error iff given at least 2 operands
of differing lengths, and return a result otherwise; each shift raises the
invalid-shift error iff the amount is below 1 and returns a result otherwise.
SUBTRACT is the exception: with at least 2 operands it succeeds iff the
shared operand length is at least 1, and raises a length-mismatch error
(from its internal addition of `_one 0`) even on equal-length operands when
that shared length is 0. -/
theorem c5_error_conditions (args : List (List Nat)) (s : Int) (bits : List Nat) :
    ((op_and args = .error (.arity 2 args.length)) ↔ args.length < 2) ∧
    ((∃ ls, op_and args = .error (.lengthMismatch ls)) ↔
      2 ≤ args.length ∧ ¬ sharesCommonLength args) ∧
    ((∃ out, op_and args = .ok out) ↔ 2 ≤ args.length ∧ sharesCommonLength args) ∧
    ((op_or args = .error (.arity 2 args.length)) ↔ args.length < 2) ∧
    ((∃ ls, op_or args = .error (.lengthMismatch ls)) ↔
      2 ≤ args.length ∧ ¬ sharesCommonLength args) ∧
    ((∃ out, op_or args = .ok out) ↔ 2 ≤ args.length ∧ sharesCommonLength args) ∧
    ((op_xor args = .error (.arity 2 args.length)) ↔ args.length < 2) ∧
    ((∃ ls, op_xor args = .error (.lengthMismatch ls)) ↔
      2 ≤ args.length ∧ ¬ sharesCommonLength args) ∧
    ((∃ out, op_xor args = .ok out) ↔ 2 ≤ args.length ∧ sharesCommonLength args) ∧
    ((op_add args = .error (.arity 2 args.length)) ↔ args.length < 2) ∧
    ((∃ ls, op_add args = .error (.lengthMismatch ls)) ↔
      2 ≤ args.length ∧ ¬ sharesCommonLength args) ∧
    ((∃ out, op_add args = .ok out) ↔ 2 ≤ args.length ∧ sharesCommonLength args) ∧
    ((op_sub args = .error (.arity 2 args.length)) ↔ args.length < 2) ∧
    ((∃ out, op_sub args = .ok out) ↔
      2 ≤ args.length ∧ ∃ L, 1 ≤ L ∧ ∀ a ∈ args, a.length = L) ∧
    ((∃ ls, op_sub args = .error (.lengthMismatch ls)) ↔
      2 ≤ args.length ∧ (¬ sharesCommonLength args ∨ ∀ a ∈ args, a.length = 0)) ∧
    ((op_ls0 s bits = .error (.invalidShift s)) ↔ s < 1) ∧
    ((∃ out, op_ls0 s bits = .ok out) ↔ 1 ≤ s) ∧
    ((op_ls1 s bits = .error (.invalidShift s)) ↔ s < 1) ∧
    ((∃ out, op_ls1 s bits = .ok out) ↔ 1 ≤ s) ∧
    ((op_rs0 s bits = .error (.invalidShift s)) ↔ s < 1) ∧
    ((∃ out, op_rs0 s bits = .ok out) ↔ 1 ≤ s) ∧
    ((op_rs1 s bits = .error (.invalidShift s)) ↔ s < 1) ∧
    ((∃ out, op_rs1 s bits = .ok out) ↔ 1 ≤ s) := by
  obtain ⟨ha1, ha2, ha3⟩ := prelude_iffs op_and
    (fun args => args.foldl (fun accumulator arg =>
      List.zipWith (fun x y => x &&& y) accumulator arg)
      (List.replicate (args.headD []).length 1)) op_and_eq args
  obtain ⟨ho1, ho2, ho3⟩ := prelude_iffs op_or
    (fun args => args.foldl (fun accumulator arg =>
      List.zipWith (fun x y => x ||| y) accumulator arg)
      (List.replicate (args.headD []).length 0)) op_or_eq args
  obtain ⟨hx1, hx2, hx3⟩ := prelude_iffs op_xor
    (fun args => (args.foldl (fun counter arg =>
      List.zipWith (fun x y => x + y) counter arg)
      (List.replicate (args.headD []).length 0)).map
        (fun bit => if bit = 1 then 1 else 0)) op_xor_eq args
  obtain ⟨hd1, hd2, hd3⟩ := prelude_iffs op_add
    (fun args => args.foldl _add_two_values
      (List.replicate (args.headD []).length 0)) op_add_eq args
  obtain ⟨hs1, hs2⟩ := shift_iffs op_ls0 (fun sh bs => bs.drop sh.toNat
    ++ (List.replicate bs.length 0).drop (bs.length - sh.toNat)) (fun _ _ => rfl) s bits
  obtain ⟨ht1, ht2⟩ := shift_iffs op_ls1 (fun sh bs => bs.drop sh.toNat
    ++ (List.replicate bs.length 1).drop (bs.length - sh.toNat)) (fun _ _ => rfl) s bits
  obtain ⟨hu1, hu2⟩ := shift_iffs op_rs0 (fun sh bs => (List.replicate bs.length 0).take sh.toNat
    ++ bs.take (bs.length - sh.toNat)) (fun _ _ => rfl) s bits
  obtain ⟨hv1, hv2⟩ := shift_iffs op_rs1 (fun sh bs => (List.replicate bs.length 1).take sh.toNat
    ++ bs.take (bs.length - sh.toNat)) (fun _ _ => rfl) s bits
  exact ⟨ha1, ha2, ha3, ho1, ho2, ho3, hx1, hx2, hx3, hd1, hd2, hd3,
    op_sub_arity_iff args, op_sub_ok_iff args, op_sub_lenerr_iff args,
    hs1, hs2, ht1, ht2, hu1, hu2, hv1, hv2⟩

/-- C6, counterexample: for the empty vectors (L = 0),
`SUBTRACT(ADD(a, b), b)` raises a length-mismatch error instead of returning
`a`, because `_one 0` has length 1. -/
theorem c6_counterexample :
    (op_add [([] : List Nat), []]).bind (fun c => op_sub [c, []])
      = .error (.lengthMismatch [0, 1]) ∧
    (op_add [([] : List Nat), []]).bind (fun c => op_sub [c, []]) ≠ .ok [] := by
  refine ⟨rfl, ?_⟩
  intro h
  rw [show (op_add [([] : List Nat), []]).bind (fun c => op_sub [c, []])
    = Except.error (BitopsError.lengthMismatch [0, 1]) from rfl] at h
  exact Except.noConfusion h

/-- C6 (amended): `SUBTRACT(ADD(a, b), b) = a` under fixed-width modulo-2^L
arithmetic, for equal-length bit vectors of length L ≥ 1 (at L = 0 the call
raises a length-mismatch error instead). -/
theorem c6_sub_add_inverse (a b : List Nat) (L : Nat) (hL : 1 ≤ L)
    (ha : a.length = L) (hb : b.length = L) (hA : IsBits a) (hB : IsBits b) :
    (op_add [a, b]).bind (fun c => op_sub [c, b]) = .ok a := by
  have hva : bitsToNat a < 2 ^ L := ha ▸ bitsToNat_lt a hA
  have hvb : bitsToNat b < 2 ^ L := hb ▸ bitsToNat_lt b hB
  rw [op_add_val [a, b] L (by simp)
    (by intro x hx; rcases List.mem_pair.mp hx with rfl | rfl; exacts [ha, hb])
    (by intro x hx; rcases List.mem_pair.mp hx with rfl | rfl; exacts [hA, hB])]
  show op_sub [natToBits L ((([a, b] : List (List Nat)).map bitsToNat).sum % 2 ^ L), b]
    = .ok a
  rw [op_sub_pair_val _ b L hL (natToBits_length L _) hb (natToBits_isBits L _) hB]
  congr 1
  apply bitsToNat_inj _ _ (by rw [natToBits_length, ha]) (natToBits_isBits L _) hA
  rw [bitsToNat_natToBits, Nat.mod_mod_of_dvd _ dvd_rfl, bitsToNat_natToBits,
    Nat.mod_add_mod]
  have hS : (([a, b] : List (List Nat)).map bitsToNat).sum
      = bitsToNat a + bitsToNat b := by simp
  rw [hS, Nat.mod_add_mod, show bitsToNat a + bitsToNat b + (2 ^ L - bitsToNat b)
      = bitsToNat a + 2 ^ L from by omega,
    Nat.add_mod_right, Nat.mod_eq_of_lt hva]

/-- C6, witness at a = 101₂, b = 011₂ (L = 3). -/
theorem c6_witness :
    (op_add [[1,0,1], [0,1,1]]).bind (fun c => op_sub [c, [0,1,1]]) = .ok [1,0,1] :=
  c6_sub_add_inverse [1,0,1] [0,1,1] 3 (by decide) (by decide) (by decide)
    (by decide) (by decide)

/-- C7: for equal-length bit vectors a and b,
`XOR(a, b) = AND(OR(a, b), NOT(AND(a, b)))` (two-operand parity identity). -/
theorem c7_parity_identity (a b : List Nat) (h : a.length = b.length)
    (hA : IsBits a) (hB : IsBits b) :
    op_xor [a, b] = (op_or [a, b]).bind (fun o =>
      (op_and [a, b]).bind (fun n => op_and [o, op_neg n])) := by
  rw [op_xor_pair a b h.symm, op_or_pair a b h.symm, op_and_pair a b h.symm,
    zipWith_zero_add, zipWith_zero_lor, zipWith_one_land a hA]
  show Except.ok _ = op_and [List.zipWith (fun x y => x ||| y) a b,
    op_neg (List.zipWith (fun x y => x &&& y) a b)]
  have hlen2 : (op_neg (List.zipWith (fun x y => x &&& y) a b)).length
      = (List.zipWith (fun x y => x ||| y) a b).length := by
    simp [op_neg_length, List.length_zipWith]
  rw [op_and_pair _ _ hlen2]
  have hor_bits : IsBits (List.zipWith (fun x y => x ||| y) a b) :=
    zipWith_isBits _ (fun x y hx hy => by
      rcases hx with rfl | rfl <;> rcases hy with rfl | rfl <;> decide) a b hA hB
  rw [zipWith_one_land _ hor_bits]
  exact congrArg Except.ok (xor_zip_identity a b hA hB)

/-- C7, witness at a = 1011₂, b = 0011₂. -/
theorem c7_witness :
    op_xor [[1,0,1,1], [0,0,1,1]] = (op_or [[1,0,1,1], [0,0,1,1]]).bind (fun o =>
      (op_and [[1,0,1,1], [0,0,1,1]]).bind (fun n => op_and [o, op_neg n])) :=
  c7_parity_identity [1,0,1,1] [0,0,1,1] (by decide) (by decide) (by decide)

/-- C8, counterexample: with operand lengths 2, 3, 2 the error payload is
`[2, 3, 2]` (all lengths, in operand order, duplicates kept), not the sorted
set `[2, 3]` the spec describes. -/
theorem c8_counterexample :
    op_and [[0,0],[0,0,0],[0,0]] = .error (.lengthMismatch [2,3,2]) ∧
    reportedLengths_spec [[0,0],[0,0,0],[0,0]] = [2,3] ∧
    ([2,3,2] : List Nat) ≠ [2,3] :=
  ⟨rfl, rfl, by decide⟩

/-- C8 (amended): whenever the length-mismatch error is raised, its message
reports the length of every operand of the failing call in argument order,
duplicates included (the code formats the list `l`, not the set `s`). -/
theorem c8_reported_lengths (args : List (List Nat)) (ls : List Nat)
    (h : _ensure_same_arg_length args = .error (.lengthMismatch ls)) :
    ls = args.map List.length := by
  unfold _ensure_same_arg_length at h
  split at h
  · exact absurd h (by simp)
  · simpa using (Except.error.inj h).symm

/-- C8, witness: a failing validation call with operand lengths 2 and 3. -/
theorem c8_witness :
    _ensure_same_arg_length [[0,0],[0,0,0]] = .error (.lengthMismatch [2,3]) ∧
    ([2,3] : List Nat) = ([[0,0],[0,0,0]] : List (List Nat)).map List.length :=
  ⟨rfl, c8_reported_lengths [[0,0],[0,0,0]] [2,3] rfl⟩

/-- C9: bit-closure — every operation of the library, applied to vectors
whose elements are all 0 or 1 and succeeding, returns a vector whose elements
are all 0 or 1. -/
theorem c9_bit_closure (args : List (List Nat)) (bits : List Nat) (s : Int)
    (hargs : ∀ a ∈ args, IsBits a) (hbits : IsBits bits) :
    (∀ out, op_and args = .ok out → IsBits out) ∧
    (∀ out, op_or args = .ok out → IsBits out) ∧
    (∀ out, op_xor args = .ok out → IsBits out) ∧
    IsBits (op_neg bits) ∧
    (∀ out, op_ls0 s bits = .ok out → IsBits out) ∧
    (∀ out, op_ls1 s bits = .ok out → IsBits out) ∧
    (∀ out, op_rs0 s bits = .ok out → IsBits out) ∧
    (∀ out, op_rs1 s bits = .ok out → IsBits out) ∧
    (∀ out, op_add args = .ok out → IsBits out) ∧
    (∀ out, op_sub args = .ok out → IsBits out) ∧
    (∀ out, op_inc bits = .ok out → IsBits out) ∧
    (∀ out, op_dec bits = .ok out → IsBits out) :=
  ⟨fun out h => op_and_isBits_out args out hargs h,
    fun out h => op_or_isBits_out args out hargs h,
    fun out h => op_xor_isBits_out args out h,
    op_neg_isBits bits,
    fun out h => op_ls0_isBits_out s bits out hbits h,
    fun out h => op_ls1_isBits_out s bits out hbits h,
    fun out h => op_rs0_isBits_out s bits out hbits h,
    fun out h => op_rs1_isBits_out s bits out hbits h,
    fun out h => op_add_isBits_out args out h,
    fun out h => op_sub_isBits_out args out hargs h,
    fun out h => op_add_isBits_out [bits, _one bits.length] out h,
    fun out h => op_sub_isBits_out [bits, _one bits.length] out
      (by intro a ha
          rcases List.mem_pair.mp ha with rfl | rfl
          exacts [hbits, _one_isBits _]) h⟩

/-- C9, witness at two 2-bit operands, a 2-bit vector and shift amount 1. -/
theorem c9_witness :
    (∀ out, op_and [[1,0],[0,1]] = .ok out → IsBits out) ∧
    (∀ out, op_or [[1,0],[0,1]] = .ok out → IsBits out) ∧
    (∀ out, op_xor [[1,0],[0,1]] = .ok out → IsBits out) ∧
    IsBits (op_neg [1,0]) ∧
    (∀ out, op_ls0 1 [1,0] = .ok out → IsBits out) ∧
    (∀ out, op_ls1 1 [1,0] = .ok out → IsBits out) ∧
    (∀ out, op_rs0 1 [1,0] = .ok out → IsBits out) ∧
    (∀ out, op_rs1 1 [1,0] = .ok out → IsBits out) ∧
    (∀ out, op_add [[1,0],[0,1]] = .ok out → IsBits out) ∧
    (∀ out, op_sub [[1,0],[0,1]] = .ok out → IsBits out) ∧
    (∀ out, op_inc [1,0] = .ok out → IsBits out) ∧
    (∀ out, op_dec [1,0] = .ok out → IsBits out) :=
  c9_bit_closure [[1,0],[0,1]] [1,0] 1 (by decide) (by decide)

/-- C10: INCREMENT and DECREMENT applied to the empty bit vector raise the
length-mismatch error, because the unit vector `_one 0` has length 1 rather
than length 0. -/
theorem c10_empty_inc_dec :
    op_inc [] = .error (.lengthMismatch [0, 1]) ∧
    op_dec [] = .error (.lengthMismatch [0, 1]) ∧
    (_one 0).length = 1 :=
  ⟨rfl, rfl, rfl⟩

